import Mathlib

/-!
Verification development for the DHT node core (`src/lib.rs`).

The Rust code is shallowly embedded: DashMaps become association lists,
machine integers become `Nat`/`Int` (with explicit `% 256` or saturation
where u8 arithmetic matters), fallible functions return `Except`, and the
external collaborators (the crypto adapter, the ADNL transport, the TL
serializer and the overlay validator) become oracle fields of an `Env`
record, exactly as the spec marks them out of scope.
-/

set_option maxRecDepth 8192

/-! ## XOR bucket distance (`DhtNode::add_peer`, lines 137-152, and `BITS`) -/

/-- Table `DhtNode::BITS`: leading-zero count of a nibble. -/
def BITS : List Nat := [4, 3, 2, 2, 1, 1, 1, 1, 0, 0, 0, 0, 0, 0, 0, 0]

/-- Distance contribution of the first non-zero XOR byte `x`:
`if (x & 0xF0) == 0 { BITS[x & 0x0F] + 4 } else { BITS[x >> 4] }`. -/
def nibbleDist (x : Nat) : Nat :=
  if x &&& 0xF0 = 0 then BITS.getD (x &&& 0x0F) 0 + 4 else BITS.getD (x >>> 4) 0

/-- The byte loop of `add_peer`: 8 per zero XOR byte, stop at the first
non-zero byte.  In Rust `dist` is a `u8`; for distinct keys the sum stays
below 256, so plain `Nat` addition is faithful there. -/
def distLoop : List Nat → Nat
  | [] => 0
  | x :: xs => if x = 0 then 8 + distLoop xs else nibbleDist x

/-- Bucket distance between two key-ids (byte lists), as computed by
`add_peer`. -/
def bucketDist (k1 k2 : List Nat) : Nat :=
  distLoop (List.zipWith (fun a b => a ^^^ b) k1 k2)

/-- The 8 bits of a byte, most significant first. -/
def byteBits (x : Nat) : List Bool :=
  [x.testBit 7, x.testBit 6, x.testBit 5, x.testBit 4,
   x.testBit 3, x.testBit 2, x.testBit 1, x.testBit 0]

/-- All bits of a key, most significant first. -/
def keyBits (k : List Nat) : List Bool := k.flatMap byteBits

/-- Number of leading `false` entries of a bit string. -/
def leadingZeros : List Bool → Nat
  | [] => 0
  | true :: _ => 0
  | false :: bs => 1 + leadingZeros bs

/-- Count of leading matching bits of two keys: the leading zero bits of
their bytewise XOR. -/
def matchingBits (k1 k2 : List Nat) : Nat :=
  leadingZeros (keyBits (List.zipWith (fun a b => a ^^^ b) k1 k2))

theorem nibbleDist_eq_clz (x : Fin 256) (hx : x.val ≠ 0) :
    nibbleDist x.val = leadingZeros (byteBits x.val) ∧ nibbleDist x.val ≤ 7 := by
  revert hx; revert x; decide

theorem byteBits_zero : byteBits 0 = [false, false, false, false, false, false, false, false] := by
  decide

theorem leadingZeros_append_of_mem (l1 l2 : List Bool) (h : true ∈ l1) :
    leadingZeros (l1 ++ l2) = leadingZeros l1 := by
  induction l1 with
  | nil => simp at h
  | cons b bs ih =>
    cases b with
    | true => rfl
    | false =>
      have h' : true ∈ bs := by
        rcases List.mem_cons.mp h with h0 | h0
        · exact absurd h0.symm (by simp)
        · exact h0
      show 1 + leadingZeros (bs ++ l2) = 1 + leadingZeros bs
      rw [ih h']

theorem byteBits_mem_true (x : Fin 256) (hx : x.val ≠ 0) : true ∈ byteBits x.val := by
  revert hx; revert x; decide

theorem distLoop_eq_leadingZeros (xs : List Nat)
    (hb : ∀ x ∈ xs, x < 256) (hnz : ∃ x ∈ xs, x ≠ 0) :
    distLoop xs = leadingZeros (keyBits xs) ∧ distLoop xs < 8 * xs.length := by
  induction xs with
  | nil => obtain ⟨x, hx, _⟩ := hnz; simp at hx
  | cons x xs ih =>
    by_cases hx : x = 0
    · subst hx
      have hnz' : ∃ y ∈ xs, y ≠ 0 := by
        obtain ⟨y, hy, hyne⟩ := hnz
        rcases List.mem_cons.mp hy with h | h
        · exact absurd h.symm (Ne.symm hyne)
        · exact ⟨y, h, hyne⟩
      have hb' : ∀ y ∈ xs, y < 256 := fun y hy => hb y (List.mem_cons_of_mem _ hy)
      obtain ⟨ih1, ih2⟩ := ih hb' hnz'
      have hd : distLoop (0 :: xs) = 8 + distLoop xs := by simp [distLoop]
      have hk : keyBits (0 :: xs) = byteBits 0 ++ keyBits xs := by
        simp [keyBits, List.flatMap_cons]
      have hlz : leadingZeros (byteBits 0 ++ keyBits xs) = 8 + leadingZeros (keyBits xs) := by
        rw [byteBits_zero]
        show 1 + (1 + (1 + (1 + (1 + (1 + (1 + (1 + leadingZeros (keyBits xs)))))))) = _
        omega
      constructor
      · rw [hd, hk, hlz, ih1]
      · rw [hd]
        simp only [List.length_cons]
        omega
    · have hx256 : x < 256 := hb x (List.mem_cons_self _ _)
      obtain ⟨h1', h2'⟩ := nibbleDist_eq_clz ⟨x, hx256⟩ hx
      have h1 : nibbleDist x = leadingZeros (byteBits x) := h1'
      have h2 : nibbleDist x ≤ 7 := h2'
      have hany : true ∈ byteBits x := byteBits_mem_true ⟨x, hx256⟩ hx
      have hd : distLoop (x :: xs) = nibbleDist x := by simp [distLoop, hx]
      have hk : keyBits (x :: xs) = byteBits x ++ keyBits xs := by
        simp [keyBits, List.flatMap_cons]
      constructor
      · rw [hd, hk, leadingZeros_append_of_mem _ _ hany]
        exact h1
      · rw [hd]
        simp only [List.length_cons]
        omega

/-- C2: for distinct 32-byte key-ids, the bucket distance computed by the
byte/nibble loop of `add_peer` equals the count of leading matching bits of
`local XOR peer`, and is strictly less than 256. -/
theorem C2_theorem (a b : List Nat) (ha : a.length = 32) (hb : b.length = 32)
    (ha256 : ∀ x ∈ a, x < 256) (hb256 : ∀ x ∈ b, x < 256) (hne : a ≠ b) :
    bucketDist a b = matchingBits a b ∧ bucketDist a b < 256 := by
  have hlen : (List.zipWith (fun x y => x ^^^ y) a b).length = 32 := by
    rw [List.length_zipWith, ha, hb]; omega
  have hbytes : ∀ x ∈ List.zipWith (fun x y => x ^^^ y) a b, x < 256 := by
    intro x hx
    obtain ⟨i, hi, hget⟩ := List.mem_iff_getElem.mp hx
    have hia : i < a.length := by rw [List.length_zipWith] at hi; omega
    have hib : i < b.length := by rw [List.length_zipWith] at hi; omega
    rw [List.getElem_zipWith] at hget
    have h1 : a[i] < 256 := ha256 _ (List.getElem_mem hia)
    have h2 : b[i] < 256 := hb256 _ (List.getElem_mem hib)
    subst hget
    calc a[i] ^^^ b[i] < 2 ^ 8 := Nat.xor_lt_two_pow (by omega) (by omega)
      _ = 256 := by norm_num
  have hnz : ∃ x ∈ List.zipWith (fun x y => x ^^^ y) a b, x ≠ 0 := by
    by_contra hall
    push_neg at hall
    apply hne
    apply List.ext_getElem (by omega)
    intro i hia hib
    have hi : i < (List.zipWith (fun x y => x ^^^ y) a b).length := by omega
    have := hall _ (List.mem_iff_getElem.mpr ⟨i, hi, rfl⟩)
    rw [List.getElem_zipWith] at this
    exact Nat.xor_eq_zero.mp this
  obtain ⟨h1, h2⟩ := distLoop_eq_leadingZeros _ hbytes hnz
  refine ⟨h1, ?_⟩
  rw [hlen] at h2
  have : distLoop (List.zipWith (fun x y => x ^^^ y) a b) < 256 := by omega
  exact this

/-- Witness for C2 at concrete distinct keys. -/
theorem C2_witness :
    bucketDist (List.replicate 32 0) (16 :: List.replicate 31 0) = 3 ∧
    matchingBits (List.replicate 32 0) (16 :: List.replicate 31 0) = 3 := by
  have h := C2_theorem (List.replicate 32 0) (16 :: List.replicate 31 0)
    (by decide) (by decide) (by decide) (by decide) (by decide)
  have hbv : bucketDist (List.replicate 32 0) (16 :: List.replicate 31 0) = 3 := by decide
  exact ⟨hbv, by rw [← h.1]; exact hbv⟩

/-! ## Data model (ton_api types used by `lib.rs`) -/

/-- Model of `ton::overlay::node::Node`: only the fields `lib.rs` reads (`id`,
`version`) are modelled structurally; the rest is an uninterpreted payload. -/
structure OverlayNodeM where
  id : Nat
  version : Int
  payload : Nat
  deriving DecidableEq, Repr

/-- Model of `ton::PublicKey`: the descriptor variants distinguished by the code. -/
inductive PublicKeyM where
  | ed25519 (key : List Nat)
  | overlay (name : List Nat)
  | other (tag : Nat)
  deriving DecidableEq, Repr

/-- Model of the key triple of dht.key (id, idx, name). -/
structure DhtKeyM where
  id : List Nat
  idx : Int
  name : List Nat
  deriving DecidableEq, Repr

/-- Model of `dht.UpdateRule`. -/
inductive UpdateRuleM where
  | signatureRule
  | overlayNodesRule
  | anybodyRule
  deriving DecidableEq, Repr

/-- The `value` bytes of a `dht.value`: either a serialized overlay-node
list (serialization is an external bijection, so the parsed form stands for
the bytes) or bytes that do not deserialize to one. -/
inductive PayloadM where
  | overlayNodes (l : List OverlayNodeM)
  | raw (bytes : List Nat)
  deriving DecidableEq, Repr

/-- Model of `dht.keydescription.KeyDescription`. -/
structure DhtKeyDescriptionM where
  id : PublicKeyM
  key : DhtKeyM
  signature : List Nat
  update_rule : UpdateRuleM
  deriving DecidableEq, Repr

/-- Model of `dht.value.Value` (ttl is an `i32`; only compared, never overflowed). -/
structure DhtValueM where
  key : DhtKeyDescriptionM
  value : PayloadM
  ttl : Int
  signature : List Nat
  deriving DecidableEq, Repr

/-- Model of `dht.node.Node`: the peer descriptor.  `id` stands for the public-key
descriptor, `addrList` for the uninterpreted address list. -/
structure NodeM where
  id : List Nat
  addrList : Nat
  version : Int
  signature : List Nat
  deriving DecidableEq, Repr

/-- Embedding of `DhtNode::dht_key_from_key_id(id, name)`. -/
def dht_key_from_key_id (id : List Nat) (name : List Nat) : DhtKeyM :=
  ⟨id, 0, name⟩

/-- The bytes of the string "nodes". -/
def nodesName : List Nat := [110, 111, 100, 101, 115]

/-- Oracles for the external collaborators (crypto, serializer hash,
ADNL transport, overlay validation).  Each field stands for one call the
DHT core makes across an interface the spec marks out of scope. -/
structure Env where
  /-- `DhtNode::verify_value` (Ed25519 verification of key and value). -/
  verifyValue : DhtValueM → Bool
  /-- `OverlayUtils::verify_node`. -/
  verifyOverlayNode : List Nat → OverlayNodeM → Bool
  /-- `hash_boxed` of a public-key descriptor (the 32-byte key-id). -/
  hashPk : PublicKeyM → List Nat
  /-- `hash` of a serialized `dht.key` (the 32-byte storage key). -/
  hashKey : DhtKeyM → Nat
  /-- `DhtNode::verify_other_node`. -/
  verifyNode : NodeM → Bool
  /-- `parse_address_list` + `KeyOption::from_tl_public_key` +
  `AdnlNode::add_peer`: an error, a non-fresh `None`, or the peer key-id. -/
  adnlResult : NodeM → Except String (Option (List Nat))
  /-- `DhtNode::sign_local_node` (the self-signed descriptor). -/
  signLocal : NodeM

/-! ## Storage (`DashMap<DhtKeyId, DhtValue>` as an association list) -/

/-- Storage: 32-byte hash keys (modelled as `Nat` tokens) to values. -/
abbrev StorageM : Type := List (Nat × DhtValueM)

/-- Map lookup (`DashMap::get` / `Entry::Occupied`). -/
def alGet (st : StorageM) (k : Nat) : Option DhtValueM :=
  (st.find? (fun e => e.1 = k)).map Prod.snd

/-- Model of `OccupiedEntry::replace_entry`: replace the value stored at `k`. -/
def alSet (st : StorageM) (k : Nat) (v : DhtValueM) : StorageM :=
  st.map (fun e => if e.1 = k then (e.1, v) else e)

/-- Embedding of `DhtNode::process_store_signed_value` (lines 791-810): verify, then
insert if absent, replace if the present entry has a strictly smaller ttl,
else keep.  Returns the changed-flag; errors leave the storage as is. -/
def process_store_signed_value (env : Env) (st : StorageM) (dht_key_id : Nat)
    (value : DhtValueM) : StorageM × Except String Bool :=
  if env.verifyValue value then
    match alGet st dht_key_id with
    | some old =>
      if old.ttl < value.ttl then (alSet st dht_key_id value, .ok true)
      else (st, .ok false)
    | none => (st ++ [(dht_key_id, value)], .ok true)
  else (st, .error "signature mismatch")

/-- One step of the `process_nodes` closure (lines 730-746): look for an
existing node with the same `id`; replace it when the new version is
strictly greater, abort the whole store when it is not, append when no
node matches. -/
def insertNode (n : OverlayNodeM) : List OverlayNodeM → Option (List OverlayNodeM)
  | [] => some [n]
  | o :: rest =>
    if n.id = o.id then
      if o.version < n.version then some (n :: rest) else none
    else
      (insertNode n rest).map (fun r => o :: r)

/-- The loop of `process_nodes` over all new nodes. -/
def processNodes (old : List OverlayNodeM) : List OverlayNodeM → Option (List OverlayNodeM)
  | [] => some old
  | n :: ns =>
    match insertNode n old with
    | none => none
    | some old' => processNodes old' ns

/-- Embedding of `DhtNode::process_store_overlay_nodes` (lines 699-789).  The surviving
node list is reversed because the Rust code pops from the deserialized
vector while pushing survivors.  Errors leave the storage as is. -/
def process_store_overlay_nodes (env : Env) (now : Int) (st : StorageM)
    (dht_key_id : Nat) (value : DhtValueM) : StorageM × Except String Bool :=
  if value.signature ≠ [] then (st, .error "Wrong value signature for OverlayNodes")
  else if value.key.signature ≠ [] then (st, .error "Wrong key signature for OverlayNodes")
  else
    match value.key.id with
    | PublicKeyM.overlay _ =>
      let overlay_short_id := env.hashPk value.key.id
      if dht_key_from_key_id overlay_short_id nodesName ≠ value.key.key then
        (st, .error "Wrong DHT key for OverlayNodes")
      else
        match value.value with
        | PayloadM.raw _ => (st, .error "Wrong OverlayNodes")
        | PayloadM.overlayNodes nodes_list =>
          let nodes := (nodes_list.filter (env.verifyOverlayNode overlay_short_id)).reverse
          if nodes = [] then (st, .error "Empty overlay nodes list")
          else
            match alGet st dht_key_id with
            | some old =>
              if old.ttl < now then
                match processNodes [] nodes with
                | none => (st, .ok false)
                | some merged =>
                  (alSet st dht_key_id ⟨value.key, PayloadM.overlayNodes merged,
                    value.ttl, value.signature⟩, .ok true)
              else if old.ttl > value.ttl then (st, .ok false)
              else
                match old.value with
                | PayloadM.raw _ => (st, .error "Wrong OverlayNodes")
                | PayloadM.overlayNodes old_nodes =>
                  match processNodes old_nodes nodes with
                  | none => (st, .ok false)
                  | some merged =>
                    (alSet st dht_key_id ⟨value.key, PayloadM.overlayNodes merged,
                      value.ttl, value.signature⟩, .ok true)
            | none =>
              match processNodes [] nodes with
              | none => (st, .ok false)
              | some merged =>
                (st ++ [(dht_key_id, ⟨value.key, PayloadM.overlayNodes merged,
                  value.ttl, value.signature⟩)], .ok true)
    | _ => (st, .error "Wrong key description format for OverlayNodes")

/-- Embedding of `DhtNode::process_store` (lines 679-697): hash the key, reject expired
values, then dispatch on the update rule. -/
def process_store (env : Env) (now : Int) (st : StorageM) (value : DhtValueM) :
    StorageM × Except String Unit :=
  let dht_key_id := env.hashKey value.key.key
  if value.ttl ≤ now then (st, .error "Ignore expired DHT value")
  else
    match value.key.update_rule with
    | UpdateRuleM.signatureRule =>
      let r := process_store_signed_value env st dht_key_id value
      (r.1, r.2.map (fun _ => ()))
    | UpdateRuleM.overlayNodesRule =>
      let r := process_store_overlay_nodes env now st dht_key_id value
      (r.1, r.2.map (fun _ => ()))
    | UpdateRuleM.anybodyRule => (st, .error "Unsupported store query")

/-- Embedding of `DhtNode::search_dht_key`: a stored value is visible only while
`ttl > now`. -/
def search_dht_key (now : Int) (st : StorageM) (key : Nat) : Option DhtValueM :=
  match alGet st key with
  | some v => if v.ttl > now then some v else none
  | none => none

/-! ## C3 / C4: signed stores -/

theorem alGet_alSet_self (st : StorageM) (k : Nat) (v : DhtValueM)
    (h : (alGet st k).isSome) : alGet (alSet st k v) k = some v := by
  induction st with
  | nil => simp [alGet] at h
  | cons e es ih =>
    by_cases he : e.1 = k
    · simp [alGet, alSet, List.find?_cons, he]
    · have h' : (alGet es k).isSome := by
        simpa [alGet, List.find?_cons, he] using h
      simpa [alGet, alSet, List.find?_cons, he] using ih h'

theorem alSet_ne (st : StorageM) (k : Nat) (v old : DhtValueM)
    (h : alGet st k = some old) (hne : old ≠ v) : alSet st k v ≠ st := by
  intro heq
  have hs : alGet (alSet st k v) k = some v :=
    alGet_alSet_self st k v (by rw [h]; rfl)
  rw [heq, h] at hs
  exact hne (Option.some_injective _ hs)


theorem append_one_ne (st : StorageM) (x : Nat × DhtValueM) : st ++ [x] ≠ st := by
  intro h
  have := congrArg List.length h
  simp at this

/-- C3: for values passing signature verification,
`process_store_signed_value` inserts when the hash is absent, replaces when
the stored entry has a strictly smaller ttl, keeps the storage otherwise,
and returns true exactly when the stored state changed. -/
theorem C3_theorem (env : Env) (st : StorageM) (id : Nat) (v : DhtValueM)
    (hv : env.verifyValue v = true) :
    (alGet st id = none →
      process_store_signed_value env st id v = (st ++ [(id, v)], .ok true)) ∧
    (∀ old, alGet st id = some old → old.ttl < v.ttl →
      process_store_signed_value env st id v = (alSet st id v, .ok true)) ∧
    (∀ old, alGet st id = some old → ¬ old.ttl < v.ttl →
      process_store_signed_value env st id v = (st, .ok false)) ∧
    ((process_store_signed_value env st id v).2 = .ok true ↔
      (process_store_signed_value env st id v).1 ≠ st) := by
  refine ⟨?_, ?_, ?_, ?_⟩
  · intro h
    simp [process_store_signed_value, hv, h]
  · intro old h hlt
    simp [process_store_signed_value, hv, h, hlt]
  · intro old h hlt
    simp [process_store_signed_value, hv, h, hlt]
  · rcases h : alGet st id with _ | old
    · simp only [process_store_signed_value, hv, if_true, h]
      constructor
      · intro _
        exact append_one_ne st (id, v)
      · intro _
        exact trivial
    · by_cases hlt : old.ttl < v.ttl
      · simp only [process_store_signed_value, hv, if_true, h, if_pos hlt]
        constructor
        · intro _
          exact alSet_ne st id v old h (by intro he; subst he; exact lt_irrefl _ hlt)
        · intro _
          exact trivial
      · simp only [process_store_signed_value, hv, if_true, h, if_neg hlt]
        constructor
        · intro hfalse
          cases hfalse
        · intro hne
          exact absurd rfl hne

/-- A trivial concrete oracle environment used by witnesses. -/
def env0 : Env :=
  ⟨fun _ => true, fun _ _ => true, fun _ => [], fun _ => 0, fun _ => true,
   fun _ => .ok none, ⟨[], 0, 0, []⟩⟩

/-- A concrete signed value used by witnesses. -/
def val0 : DhtValueM :=
  ⟨⟨PublicKeyM.ed25519 [], ⟨[], 0, []⟩, [], UpdateRuleM.signatureRule⟩,
   PayloadM.raw [], 100, []⟩

/-- Witness for C3: storing into empty storage inserts and reports true. -/
theorem C3_witness :
    process_store_signed_value env0 [] 7 val0 = ([(7, val0)], .ok true) :=
  (C3_theorem env0 [] 7 val0 rfl).1 rfl

/-- C4: a store whose value has `ttl ≤ now` is rejected by `process_store`
with an error and leaves the storage unchanged. -/
theorem C4_theorem (env : Env) (now : Int) (st : StorageM) (v : DhtValueM)
    (_hrule : v.key.update_rule = UpdateRuleM.signatureRule) (h : v.ttl ≤ now) :
    (process_store env now st v).1 = st ∧
    ∃ e, (process_store env now st v).2 = .error e := by
  constructor
  · simp [process_store, h]
  · exact ⟨"Ignore expired DHT value", by simp [process_store, h]⟩

/-- Witness for C4: an expired value (ttl 100 at time 200) is a no-op error. -/
theorem C4_witness :
    (process_store env0 200 [] val0).1 = [] ∧
    ∃ e, (process_store env0 200 [] val0).2 = .error e :=
  C4_theorem env0 200 [] val0 rfl (by decide)

/-! ## C5 / C6: overlay-node stores -/

/-- Version order on overlay nodes. -/
def verLE (a b : OverlayNodeM) : Prop := a.version ≤ b.version

theorem forall2_verLE_refl (l : List OverlayNodeM) : List.Forall₂ verLE l l := by
  induction l with
  | nil => exact List.Forall₂.nil
  | cons o rest ih => exact List.Forall₂.cons (le_refl _) ih

theorem forall2_verLE_trans {a b c : List OverlayNodeM}
    (h1 : List.Forall₂ verLE a b) (h2 : List.Forall₂ verLE b c) :
    List.Forall₂ verLE a c := by
  induction h1 generalizing c with
  | nil => cases h2; exact List.Forall₂.nil
  | cons hab h ih =>
    cases h2 with
    | cons hbc h' => exact List.Forall₂.cons (le_trans hab hbc) (ih h')

/-- A successful `insertNode` either appends the new node or strictly
raises one version in place. -/
theorem insertNode_cases (n : OverlayNodeM) (cur cur' : List OverlayNodeM)
    (h : insertNode n cur = some cur') :
    cur' = cur ++ [n] ∨
    (List.Forall₂ verLE cur cur' ∧ ¬ List.Forall₂ verLE cur' cur) := by
  induction cur generalizing cur' with
  | nil =>
    simp only [insertNode, Option.some_inj] at h
    exact Or.inl (by simp [← h])
  | cons o rest ih =>
    by_cases hid : n.id = o.id
    · simp only [insertNode, if_pos hid] at h
      by_cases hver : o.version < n.version
      · rw [if_pos hver, Option.some_inj] at h
        subst h
        refine Or.inr ⟨List.Forall₂.cons (le_of_lt hver) (forall2_verLE_refl rest), ?_⟩
        intro hF
        rcases List.forall₂_cons.mp hF with ⟨hle, _⟩
        exact absurd hver (not_lt_of_le hle)
      · rw [if_neg hver] at h
        cases h
    · simp only [insertNode, if_neg hid, Option.map_eq_some'] at h
      obtain ⟨r, hr, hcur⟩ := h
      subst hcur
      rcases ih r hr with hap | ⟨hF, hnF⟩
      · exact Or.inl (by rw [hap]; rfl)
      · refine Or.inr ⟨List.Forall₂.cons (le_refl _) hF, ?_⟩
        intro hF'
        rcases List.forall₂_cons.mp hF' with ⟨_, htail⟩
        exact hnF htail

/-- Progress measure: `cur` strictly dominates `old`. -/
def dominates (old cur : List OverlayNodeM) : Prop :=
  old.length < cur.length ∨
  (List.Forall₂ verLE old cur ∧ ¬ List.Forall₂ verLE cur old)

theorem dominates_ne (old cur : List OverlayNodeM) (h : dominates old cur) :
    cur ≠ old := by
  intro he
  subst he
  rcases h with h | ⟨h1, h2⟩
  · exact lt_irrefl _ h
  · exact h2 h1

theorem dominates_step (old cur cur' : List OverlayNodeM) (n : OverlayNodeM)
    (hd : dominates old cur) (h : insertNode n cur = some cur') :
    dominates old cur' := by
  rcases insertNode_cases n cur cur' h with hap | ⟨hF, hnF⟩
  · subst hap
    rcases hd with hlen | ⟨h1, _⟩
    · exact Or.inl (by simp; omega)
    · exact Or.inl (by rw [List.Forall₂.length_eq h1]; simp)
  · rcases hd with hlen | ⟨h1, h2⟩
    · exact Or.inl (by rw [← List.Forall₂.length_eq hF]; exact hlen)
    · refine Or.inr ⟨forall2_verLE_trans h1 hF, ?_⟩
      intro hF'
      exact hnF (forall2_verLE_trans hF' h1)

theorem processNodes_dominates (ns : List OverlayNodeM) :
    ∀ old cur merged, dominates old cur → processNodes cur ns = some merged →
    dominates old merged := by
  induction ns with
  | nil =>
    intro old cur merged hd h
    simp only [processNodes, Option.some_inj] at h
    subst h
    exact hd
  | cons n ns ih =>
    intro old cur merged hd h
    simp only [processNodes] at h
    rcases hi : insertNode n cur with _ | cur'
    · rw [hi] at h; cases h
    · rw [hi] at h
      exact ih old cur' merged (dominates_step old cur cur' n hd hi) h

/-- A successful merge of a non-empty node list changes the stored list. -/
theorem processNodes_ne (old merged : List OverlayNodeM)
    (n : OverlayNodeM) (ns : List OverlayNodeM)
    (h : processNodes old (n :: ns) = some merged) : merged ≠ old := by
  simp only [processNodes] at h
  rcases hi : insertNode n old with _ | cur'
  · rw [hi] at h; cases h
  · rw [hi] at h
    have hd : dominates old cur' := by
      rcases insertNode_cases n old cur' hi with hap | ⟨hF, hnF⟩
      · subst hap
        exact Or.inl (by simp)
      · exact Or.inr ⟨hF, hnF⟩
    exact dominates_ne old merged (processNodes_dominates ns old cur' merged hd h)

/-- When no stored node matches the new node's id, `insertNode` appends. -/
theorem insertNode_append (n : OverlayNodeM) (old : List OverlayNodeM)
    (h : ∀ x ∈ old, x.id ≠ n.id) : insertNode n old = some (old ++ [n]) := by
  induction old with
  | nil => rfl
  | cons o rest ih =>
    have hid : ¬ n.id = o.id := fun he => h o (List.mem_cons_self _ _) he.symm
    have ih' := ih (fun x hx => h x (List.mem_cons_of_mem _ hx))
    simp [insertNode, hid, ih']

/-- When the first matching stored node is found, `insertNode` replaces it
for a strictly greater version and aborts otherwise. -/
theorem insertNode_replace (n o : OverlayNodeM) (a b : List OverlayNodeM)
    (ha : ∀ x ∈ a, x.id ≠ n.id) (ho : o.id = n.id) :
    insertNode n (a ++ o :: b) =
      if o.version < n.version then some (a ++ n :: b) else none := by
  induction a with
  | nil => simp [insertNode, ho.symm]
  | cons x rest ih =>
    have hid : ¬ n.id = x.id := fun he => ha x (List.mem_cons_self _ _) he.symm
    have ih' := ih (fun y hy => ha y (List.mem_cons_of_mem _ hy))
    have hstep : insertNode n ((x :: rest) ++ o :: b) =
        (insertNode n (rest ++ o :: b)).map (fun r => x :: r) := by
      simp [insertNode, hid]
    rw [hstep, ih']
    split
    · simp
    · simp

/-- For a value that is not yet expired, `process_store_overlay_nodes`
returns true exactly when it changed the stored state. -/
theorem psons_true_iff_changed (env : Env) (now : Int) (st : StorageM) (id : Nat)
    (v : DhtValueM) (httl : now < v.ttl) :
    ((process_store_overlay_nodes env now st id v).2 = .ok true ↔
     (process_store_overlay_nodes env now st id v).1 ≠ st) := by
  simp only [process_store_overlay_nodes]
  split
  · simp
  split
  · simp
  split
  case _ =>
    split
    · simp
    split
    case _ => simp
    case _ nodes_list =>
      split
      · simp
      case _ hnil =>
        split
        case _ old hget =>
          split
          case _ hexp =>
            split
            case _ hm => simp
            case _ merged hm =>
              simp only [true_iff]
              refine alSet_ne st id _ old hget ?_
              intro he
              have h1 : old.ttl = v.ttl := by rw [he]
              omega
          case _ hexp =>
            split
            case _ httlgt => simp
            case _ httlgt =>
              split
              case _ bytes hov => simp
              case _ old_nodes hov =>
                split
                case _ hm => simp
                case _ merged hm =>
                  simp only [true_iff]
                  refine alSet_ne st id _ old hget ?_
                  intro he
                  obtain ⟨n, ns, hnn⟩ := List.exists_cons_of_ne_nil hnil
                  rw [hnn] at hm
                  have hne := processNodes_ne old_nodes merged n ns hm
                  have h1 : old.value = PayloadM.overlayNodes merged := by
                    rw [he]
                  rw [hov] at h1
                  cases h1
                  exact hne rfl
        case _ hget =>
          split
          case _ hm => simp
          case _ merged hm =>
            simp only [true_iff]
            exact append_one_ne st _
  case _ => simp

/-- Oracle environment for the overlay-store scenario: every overlay node
verifies, the overlay short id hashes to `[7]`. -/
def envC : Env :=
  ⟨fun _ => true, fun _ _ => true, fun _ => [7], fun _ => 0, fun _ => true,
   fun _ => .ok none, ⟨[], 0, 0, []⟩⟩

/-- Key description of the scenario values: an Overlay descriptor with the
matching `dht_key_from_key_id(overlay_short_id, "nodes")` key. -/
def keyDescC : DhtKeyDescriptionM :=
  ⟨PublicKeyM.overlay [3], dht_key_from_key_id [7] nodesName, [],
   UpdateRuleM.overlayNodesRule⟩

/-- nodeX at version 1. -/
def nodeX1 : OverlayNodeM := ⟨1, 1, 0⟩

/-- nodeX at version 2. -/
def nodeX2 : OverlayNodeM := ⟨1, 2, 0⟩

/-- nodeY at version 1. -/
def nodeY1 : OverlayNodeM := ⟨2, 1, 0⟩

/-- An overlay-nodes value carrying the given node list (ttl 100). -/
def valON (l : List OverlayNodeM) : DhtValueM :=
  ⟨keyDescC, PayloadM.overlayNodes l, 100, []⟩

/-- Storage after the first scenario store (`[nodeX v=1]`). -/
def c5st1 : StorageM := (process_store_overlay_nodes envC 10 [] 0 (valON [nodeX1])).1

/-- Storage after the second scenario store (`[nodeX v=2, nodeY v=1]`). -/
def c5st2 : StorageM :=
  (process_store_overlay_nodes envC 10 c5st1 0 (valON [nodeX2, nodeY1])).1

/-- C5: `process_store_overlay_nodes` merges by the two update rules — a
matching id with lesser version is replaced, a matching id with equal or
greater version aborts the whole store, an unmatched node is appended —
returns true exactly when the stored state changed, and on the concrete
scenario `[nodeX v=1]` then `[nodeX v=2, nodeY v=1]` then `[nodeX v=1]` the
stored set becomes `{nodeX v=2, nodeY v=1}` and the third store returns
false. -/
theorem C5_theorem :
    (∀ (n : OverlayNodeM) (old : List OverlayNodeM), (∀ x ∈ old, x.id ≠ n.id) →
      insertNode n old = some (old ++ [n])) ∧
    (∀ (n o : OverlayNodeM) (a b : List OverlayNodeM),
      (∀ x ∈ a, x.id ≠ n.id) → o.id = n.id →
      insertNode n (a ++ o :: b) =
        if o.version < n.version then some (a ++ n :: b) else none) ∧
    (∀ (env : Env) (now : Int) (st : StorageM) (id : Nat) (v : DhtValueM),
      now < v.ttl →
      ((process_store_overlay_nodes env now st id v).2 = .ok true ↔
       (process_store_overlay_nodes env now st id v).1 ≠ st)) ∧
    ((process_store_overlay_nodes envC 10 [] 0 (valON [nodeX1])).2 = .ok true ∧
     (process_store_overlay_nodes envC 10 c5st1 0 (valON [nodeX2, nodeY1])).2 = .ok true ∧
     alGet c5st2 0 = some ⟨keyDescC, PayloadM.overlayNodes [nodeX2, nodeY1], 100, []⟩ ∧
     process_store_overlay_nodes envC 10 c5st2 0 (valON [nodeX1]) = (c5st2, .ok false)) :=
  ⟨insertNode_append, insertNode_replace, psons_true_iff_changed,
   rfl, rfl, rfl, rfl⟩

/-- Witness for C5 at concrete inputs. -/
theorem C5_witness :
    insertNode nodeX2 [nodeX1] = some [nodeX2] ∧
    ((process_store_overlay_nodes envC 10 [] 0 (valON [nodeX1])).2 = .ok true ↔
     (process_store_overlay_nodes envC 10 [] 0 (valON [nodeX1])).1 ≠ []) := by
  constructor
  · have h := C5_theorem.2.1 nodeX2 nodeX1 [] [] (by simp) rfl
    simpa using h
  · exact C5_theorem.2.2.1 envC 10 [] 0 (valON [nodeX1]) (by decide)

/-- The key-description id is not an Overlay descriptor. -/
def notOverlayPk (pk : PublicKeyM) : Prop :=
  match pk with
  | PublicKeyM.overlay _ => False
  | _ => True

/-- The overlay-node list surviving per-element validation (the Rust loop
pops from the deserialized vector, hence the reverse); empty when the
payload does not deserialize. -/
def survivors (env : Env) (v : DhtValueM) : List OverlayNodeM :=
  match v.value with
  | PayloadM.overlayNodes l =>
    (l.filter (env.verifyOverlayNode (env.hashPk v.key.id))).reverse
  | PayloadM.raw _ => []

/-- C6: `process_store_overlay_nodes` rejects with an error and leaves the
storage unchanged whenever the value signature or key signature is
non-empty, the key id is not an Overlay descriptor, the DHT key differs
from `dht_key_from_key_id(overlay_short_id, "nodes")`, or the surviving
node list is empty. -/
theorem C6_theorem (env : Env) (now : Int) (st : StorageM) (id : Nat) (v : DhtValueM)
    (h : v.signature ≠ [] ∨ v.key.signature ≠ [] ∨ notOverlayPk v.key.id ∨
      dht_key_from_key_id (env.hashPk v.key.id) nodesName ≠ v.key.key ∨
      survivors env v = []) :
    (process_store_overlay_nodes env now st id v).1 = st ∧
    ∃ e, (process_store_overlay_nodes env now st id v).2 = .error e := by
  by_cases hA : v.signature = []
  case neg =>
    refine ⟨?_, "Wrong value signature for OverlayNodes", ?_⟩ <;>
      simp [process_store_overlay_nodes, hA]
  by_cases hB : v.key.signature = []
  case neg =>
    refine ⟨?_, "Wrong key signature for OverlayNodes", ?_⟩ <;>
      simp [process_store_overlay_nodes, hA, hB]
  rcases hid : v.key.id with k | nm | t
  · refine ⟨?_, "Wrong key description format for OverlayNodes", ?_⟩ <;>
      simp [process_store_overlay_nodes, hA, hB, hid]
  · by_cases hD : dht_key_from_key_id (env.hashPk v.key.id) nodesName = v.key.key
    case neg =>
      refine ⟨?_, "Wrong DHT key for OverlayNodes", ?_⟩ <;>
        simp [process_store_overlay_nodes, hA, hB, hid, hid ▸ hD]
    case pos =>
      rcases hval : v.value with l | bytes
      · by_cases hE : (l.filter (env.verifyOverlayNode (env.hashPk v.key.id))).reverse = []
        case pos =>
          refine ⟨?_, "Empty overlay nodes list", ?_⟩ <;>
            simp [process_store_overlay_nodes, hA, hB, hid, hid ▸ hD, hval, hid ▸ hE]
        case neg =>
          exfalso
          rcases h with h | h | h | h | h
          · exact h hA
          · exact h hB
          · rw [hid] at h
            exact h
          · exact h hD
          · simp only [survivors, hval] at h
            exact hE h
      · refine ⟨?_, "Wrong OverlayNodes", ?_⟩ <;>
          simp [process_store_overlay_nodes, hA, hB, hid, hid ▸ hD, hval]
  · refine ⟨?_, "Wrong key description format for OverlayNodes", ?_⟩ <;>
      simp [process_store_overlay_nodes, hA, hB, hid]
/-- Witness for C6: a non-empty value signature is rejected. -/
theorem C6_witness :
    (process_store_overlay_nodes env0 0 [] 0 ⟨keyDescC, PayloadM.overlayNodes [nodeX1], 100, [1]⟩).1 = [] ∧
    ∃ e, (process_store_overlay_nodes env0 0 [] 0
      ⟨keyDescC, PayloadM.overlayNodes [nodeX1], 100, [1]⟩).2 = .error e :=
  C6_theorem env0 0 [] 0 ⟨keyDescC, PayloadM.overlayNodes [nodeX1], 100, [1]⟩
    (Or.inl (by simp))

/-! ## Routing table and `add_peer` (C1) -/

/-- Generic association-list lookup (DashMap `get`). -/
def mapGet {κ ν : Type} [DecidableEq κ] (m : List (κ × ν)) (k : κ) : Option ν :=
  (m.find? (fun e => e.1 = k)).map Prod.snd

/-- A bucket: key-id to latest accepted peer descriptor. -/
abbrev BucketM : Type := List (List Nat × NodeM)

/-- The `update_peer` closure of `add_peer` (lines 154-165): replace an
existing entry only for a strictly greater version, insert when vacant. -/
def bucketUpsert (b : BucketM) (kid : List Nat) (peer : NodeM) : BucketM :=
  match mapGet b kid with
  | some old =>
    if old.version < peer.version then
      b.map (fun e => if e.1 = kid then (e.1, peer) else e)
    else b
  | none => b ++ [(kid, peer)]

/-- Embedding of `self.buckets.entry(dist)` followed by `update_peer` (lines 167-175). -/
def updateBuckets (bs : List (Nat × BucketM)) (d : Nat) (kid : List Nat)
    (peer : NodeM) : List (Nat × BucketM) :=
  match mapGet bs d with
  | some _ => bs.map (fun e => if e.1 = d then (e.1, bucketUpsert e.2 kid peer) else e)
  | none => bs ++ [(d, bucketUpsert [] kid peer)]

/-- The DHT node state: local key-id, known-peer cache (`AddressCache` as a
deduplicated insertion-ordered list), routing-table buckets, and storage. -/
structure DhtState where
  localId : List Nat
  knownPeers : List (List Nat)
  buckets : List (Nat × BucketM)
  storage : StorageM
  deriving DecidableEq, Repr

/-- Embedding of `DhtNode::add_peer` (lines 119-178): verify (failure swallowed as
`None`), register with the transport (oracle), and only when the key-id is
new to the known-peer cache compute the distance and upsert the bucket. -/
def add_peer (env : Env) (st : DhtState) (peer : NodeM) :
    Except String (DhtState × Option (List Nat)) :=
  if env.verifyNode peer then
    match env.adnlResult peer with
    | .error e => .error e
    | .ok none => .ok (st, none)
    | .ok (some ret) =>
      if ret ∈ st.knownPeers then .ok (st, some ret)
      else
        .ok (⟨st.localId, st.knownPeers ++ [ret],
              updateBuckets st.buckets (bucketDist st.localId ret) ret peer,
              st.storage⟩, some ret)
  else .ok (st, none)

theorem mapGet_append_self {κ ν : Type} [DecidableEq κ] (m : List (κ × ν)) (k : κ)
    (x : ν) (h : mapGet m k = none) : mapGet (m ++ [(k, x)]) k = some x := by
  induction m with
  | nil => simp [mapGet]
  | cons e es ih =>
    by_cases he : e.1 = k
    · simp [mapGet, List.find?_cons, he] at h
    · have h' : mapGet es k = none := by simpa [mapGet, List.find?_cons, he] using h
      simpa [mapGet, List.find?_cons, he] using ih h'

theorem mapGet_map_set {κ ν : Type} [DecidableEq κ] (m : List (κ × ν)) (k : κ)
    (f : ν → ν) (old : ν) (h : mapGet m k = some old) :
    mapGet (m.map (fun e => if e.1 = k then (e.1, f e.2) else e)) k = some (f old) := by
  induction m with
  | nil => simp [mapGet] at h
  | cons e es ih =>
    by_cases he : e.1 = k
    · have hv : e.2 = old := by simpa [mapGet, List.find?_cons, he] using h
      subst hv
      simp [mapGet, List.find?_cons, he]
    · have h' : mapGet es k = some old := by simpa [mapGet, List.find?_cons, he] using h
      simpa [mapGet, List.find?_cons, he] using ih h'

/-- Lookup after the `update_peer` upsert: the stored descriptor is the new
peer when the slot was vacant or had a lesser version, else the old one. -/
theorem bucketUpsert_get (b : BucketM) (kid : List Nat) (peer : NodeM) :
    mapGet (bucketUpsert b kid peer) kid =
      some (match mapGet b kid with
            | none => peer
            | some old => if old.version < peer.version then peer else old) := by
  rcases hg : mapGet b kid with _ | old
  · simp only [bucketUpsert, hg]
    exact mapGet_append_self b kid peer hg
  · simp only [bucketUpsert, hg]
    split
    · have := mapGet_map_set b kid (fun _ => peer) old hg
      simpa using this
    · exact hg

theorem updateBuckets_get (bs : List (Nat × BucketM)) (d : Nat) (kid : List Nat)
    (peer : NodeM) :
    mapGet (updateBuckets bs d kid peer) d =
      some (bucketUpsert ((mapGet bs d).getD []) kid peer) := by
  rcases hg : mapGet bs d with _ | b
  · simp only [updateBuckets, hg, Option.getD_none]
    exact mapGet_append_self bs d _ hg
  · simp only [updateBuckets, hg, Option.getD_some]
    have := mapGet_map_set bs d (fun x => bucketUpsert x kid peer) b hg
    simpa using this

/-- C1 (amended): an accepted `add_peer` call whose key-id is already in
the known-peer cache leaves the whole state unchanged, whatever the
version; only a call with a fresh key-id writes its bucket, and that write
keeps the higher-version descriptor. -/
theorem C1_theorem (env : Env) (st : DhtState) (peer : NodeM) (kid : List Nat)
    (st' : DhtState) (h : add_peer env st peer = .ok (st', some kid)) :
    (kid ∈ st.knownPeers → st' = st) ∧
    (kid ∉ st.knownPeers →
      st'.knownPeers = st.knownPeers ++ [kid] ∧
      ∃ b', mapGet st'.buckets (bucketDist st.localId kid) = some b' ∧
        mapGet b' kid =
          some (match mapGet ((mapGet st.buckets (bucketDist st.localId kid)).getD []) kid with
                | none => peer
                | some old => if old.version < peer.version then peer else old)) := by
  unfold add_peer at h
  split at h
  · split at h
    next e _he => simp at h
    next _hn => simp at h
    next ret _hadnl =>
      split at h
      next hmem =>
        rw [Except.ok.injEq, Prod.mk.injEq, Option.some.injEq] at h
        obtain ⟨hst, hret⟩ := h
        subst hret
        subst hst
        constructor
        · intro _
          rfl
        · intro hnot
          exact absurd hmem hnot
      next hmem =>
        rw [Except.ok.injEq, Prod.mk.injEq, Option.some.injEq] at h
        obtain ⟨hst, hret⟩ := h
        subst hret
        subst hst
        constructor
        · intro hk
          exact absurd hk hmem
        · intro _
          refine ⟨rfl, bucketUpsert ((mapGet st.buckets (bucketDist st.localId ret)).getD [])
            ret peer, ?_, ?_⟩
          · exact updateBuckets_get st.buckets (bucketDist st.localId ret) ret peer
          · exact bucketUpsert_get _ ret peer
  · simp at h

/-- Concrete oracle environment for the `add_peer` sequence: everything
verifies and the transport reports the node id as a fresh key-id. -/
def envA : Env :=
  ⟨fun _ => true, fun _ _ => true, fun _ => [], fun _ => 0, fun _ => true,
   fun n => .ok (some n.id), ⟨[], 0, 0, []⟩⟩

/-- Local key-id of the counterexample node (32 zero bytes). -/
def locA : List Nat := List.replicate 32 0

/-- Key-id of the counterexample peer (bucket distance 3 from `locA`). -/
def kidA : List Nat := 16 :: List.replicate 31 0

/-- The counterexample peer at version 1. -/
def peerA1 : NodeM := ⟨kidA, 0, 1, []⟩

/-- The counterexample peer at version 2. -/
def peerA2 : NodeM := ⟨kidA, 0, 2, []⟩

/-- The empty initial node state. -/
def stA0 : DhtState := ⟨locA, [], [], []⟩

/-- The state after accepting `peerA1`. -/
def stA1 : DhtState := ⟨locA, [kidA], [(3, [(kidA, peerA1)])], []⟩

/-- C1 counterexample: both calls are accepted (both return the key-id),
the second carries the strictly greater version 2, yet the bucket still
stores the version-1 descriptor — the stored version is not the maximum
accepted. -/
theorem C1_counterexample :
    add_peer envA stA0 peerA1 = .ok (stA1, some kidA) ∧
    add_peer envA stA1 peerA2 = .ok (stA1, some kidA) ∧
    mapGet stA1.buckets 3 = some [(kidA, peerA1)] ∧
    mapGet [(kidA, peerA1)] kidA = some peerA1 ∧
    peerA1.version = 1 ∧ peerA2.version = 2 :=
  ⟨rfl, rfl, rfl, rfl, rfl, rfl⟩

/-- Witness for C1 (amended): the first accepted call with a fresh key-id
extends the cache and writes the bucket by the monotone upsert. -/
theorem C1_witness :
    stA1.knownPeers = stA0.knownPeers ++ [kidA] ∧
    ∃ b', mapGet stA1.buckets (bucketDist stA0.localId kidA) = some b' ∧
      mapGet b' kidA =
        some (match mapGet ((mapGet stA0.buckets (bucketDist stA0.localId kidA)).getD []) kidA with
              | none => peerA1
              | some old => if old.version < peerA1.version then peerA1 else old) :=
  (C1_theorem envA stA0 peerA1 kidA stA1 rfl).2 (by decide)

/-! ## `process_find_node` (C7) and `get_known_nodes` (C10) -/

/-- Model of `u8::saturating_add`. -/
def satAdd8 (a b : Nat) : Nat := min (a + b) 255

/-- Loop `for node in bucket: push; break at k` collecting from one bucket. -/
def takeUpTo (k : Nat) (ret : List NodeM) : List NodeM → List NodeM
  | [] => ret
  | n :: ns =>
    let ret' := ret ++ [n]
    if ret'.length = k then ret' else takeUpTo k ret' ns

/-- The `while xor != 0` loop of `process_find_node` (lines 625-646).
`xr` is a u8, hence the `% 256` after the left shifts.  The fuel (16) is
slack: each iteration shifts the byte left by at least one bit, so at most
8 iterations run before `xr` becomes 0. -/
def findNodeInner (bs : List (Nat × BucketM)) (k : Nat) :
    Nat → Nat → Nat → List NodeM → List NodeM
  | 0, _, _, ret => ret
  | fuel + 1, xr, subdist, ret =>
    if xr = 0 then ret
    else
      if xr &&& 0xF0 = 0 then
        let xr' := (xr <<< 4) % 256
        let subdist' := satAdd8 subdist 4
        if ret.length = k then ret else findNodeInner bs k fuel xr' subdist' ret
      else
        let shift := BITS.getD (xr >>> 4) 0
        let subdist' := satAdd8 subdist shift
        let ret' := takeUpTo k ret (((mapGet bs subdist').getD []).map Prod.snd)
        let xr' := (xr <<< (shift + 1)) % 256
        let subdist'' := satAdd8 subdist' 1
        if ret'.length = k then ret' else findNodeInner bs k fuel xr' subdist'' ret'

/-- The `for i in 0..32` loop of `process_find_node` (lines 619-648) over
the zipped bytes of the local key and the queried key. -/
def findNodeOuter (bs : List (Nat × BucketM)) (k : Nat) :
    List (Nat × Nat) → Nat → List NodeM → List NodeM
  | [], _, ret => ret
  | (b1, b2) :: rest, dist, ret =>
    if ret.length = k then ret
    else
      let ret' := findNodeInner bs k 16 (b1 ^^^ b2) dist ret
      findNodeOuter bs k rest (satAdd8 dist 8) ret'

/-- Embedding of `DhtNode::process_find_node` (lines 613-652). -/
def process_find_node (st : DhtState) (key : List Nat) (k : Nat) : List NodeM :=
  findNodeOuter st.buckets k (st.localId.zip key) 0 []

theorem takeUpTo_length (k : Nat) (l ret : List NodeM) (h : ret.length < k) :
    (takeUpTo k ret l).length ≤ k := by
  induction l generalizing ret with
  | nil => exact le_of_lt h
  | cons n ns ih =>
    simp only [takeUpTo]
    split
    next he => omega
    next he =>
      apply ih
      simp only [List.length_append, List.length_cons, List.length_nil] at he ⊢
      omega

theorem findNodeInner_length (bs : List (Nat × BucketM)) (k : Nat) (fuel : Nat) :
    ∀ xr subdist ret, ret.length < k →
    (findNodeInner bs k fuel xr subdist ret).length ≤ k := by
  induction fuel with
  | zero => intro xr subdist ret h; exact le_of_lt h
  | succ fuel ih =>
    intro xr subdist ret h
    simp only [findNodeInner]
    split
    · exact le_of_lt h
    split
    · split
      · exact le_of_lt h
      · exact ih _ _ ret h
    · have ht := takeUpTo_length k (((mapGet bs (satAdd8 subdist (BITS.getD (xr >>> 4) 0))).getD []).map Prod.snd) ret h
      split
      next he => omega
      next he => exact ih _ _ _ (lt_of_le_of_ne ht he)

theorem findNodeOuter_length (bs : List (Nat × BucketM)) (k : Nat)
    (pairs : List (Nat × Nat)) : ∀ dist ret, ret.length ≤ k →
    (findNodeOuter bs k pairs dist ret).length ≤ k := by
  induction pairs with
  | nil => intro dist ret h; exact h
  | cons p rest ih =>
    intro dist ret h
    rcases p with ⟨b1, b2⟩
    simp only [findNodeOuter]
    split
    next he => omega
    next he =>
      exact ih _ _ (findNodeInner_length bs k 16 _ _ ret (lt_of_le_of_ne h he))

theorem findNodeOuter_self (bs : List (Nat × BucketM)) (k : Nat) (l : List Nat) :
    ∀ dist, findNodeOuter bs k (l.zip l) dist [] = [] := by
  induction l with
  | nil => intro dist; rfl
  | cons a rest ih =>
    intro dist
    simp only [List.zip_cons_cons, findNodeOuter]
    split
    · rfl
    · have hinner : findNodeInner bs k 16 (a ^^^ a) dist [] = [] := by
        rw [Nat.xor_self]
        rfl
      rw [hinner]
      exact ih _

/-- C7 (amended): `process_find_node` returns at most `k` peers, and it
only collects from buckets indexed by set bits of `local XOR key` — in
particular, when the queried key equals the local key every XOR byte is 0
and the handler returns no peers at all. -/
theorem C7_theorem :
    (∀ (st : DhtState) (key : List Nat) (k : Nat),
      (process_find_node st key k).length ≤ k) ∧
    (∀ (st : DhtState) (k : Nat), process_find_node st st.localId k = []) := by
  constructor
  · intro st key k
    exact findNodeOuter_length st.buckets k _ 0 [] (by simp)
  · intro st k
    exact findNodeOuter_self st.buckets k st.localId 0

/-- Bucket-3 peer of the FindNode scenario. -/
def keyD3 : List Nat := 16 :: List.replicate 31 0

/-- First bucket-5 peer of the FindNode scenario. -/
def keyD5a : List Nat := 4 :: List.replicate 31 0

/-- Second bucket-5 peer of the FindNode scenario. -/
def keyD5b : List Nat := 5 :: List.replicate 31 0

/-- Bucket-17 peer of the FindNode scenario. -/
def keyD17 : List Nat := 0 :: 0 :: 64 :: List.replicate 29 0

/-- The scenario routing table: peers at distances 3, 5, 5, 17 from the
all-zero local key. -/
def stC7 : DhtState :=
  ⟨locA, [keyD3, keyD5a, keyD5b, keyD17],
   [(3, [(keyD3, ⟨keyD3, 0, 1, []⟩)]),
    (5, [(keyD5a, ⟨keyD5a, 0, 1, []⟩), (keyD5b, ⟨keyD5b, 0, 1, []⟩)]),
    (17, [(keyD17, ⟨keyD17, 0, 1, []⟩)])], []⟩

/-- C7 counterexample: with peers at distances {3, 5, 5, 17},
`FindNode{key = local, k = 3}` returns the empty list, not the three
closest peers — the loop only visits buckets at set bits of the XOR, and
`local XOR local` has none. -/
theorem C7_counterexample :
    bucketDist locA keyD3 = 3 ∧ bucketDist locA keyD5a = 5 ∧
    bucketDist locA keyD5b = 5 ∧ bucketDist locA keyD17 = 17 ∧
    process_find_node stC7 locA 3 = [] := by
  exact ⟨by decide, by decide, by decide, by decide, rfl⟩

/-- Embedding of the `DhtNode::get_known_nodes` bucket walk (lines 351-361): buckets 0..=255
in ascending order, stopping at `limit` collected peers. -/
def knownLoop (bs : List (Nat × BucketM)) (limit : Nat) :
    List Nat → List NodeM → List NodeM
  | [], ret => ret
  | i :: is, ret =>
    let ret' := takeUpTo limit ret (((mapGet bs i).getD []).map Prod.snd)
    if ret'.length = limit then ret' else knownLoop bs limit is ret'

/-- Embedding of `DhtNode::get_known_nodes` (lines 347-363): `limit = 0` is an error. -/
def get_known_nodes (st : DhtState) (limit : Nat) : Except String (List NodeM) :=
  if limit = 0 then .error "It is useless to ask for zero known nodes"
  else .ok (knownLoop st.buckets limit (List.range 256) [])

/-- Model of `dht.ValueResult`. -/
inductive ValueResultM where
  | valueFound (v : DhtValueM)
  | valueNotFound (nodes : List NodeM)
  deriving DecidableEq, Repr

/-- Embedding of `DhtNode::process_find_value` (lines 654-671). -/
def process_find_value (now : Int) (st : DhtState) (key : Nat) (k : Nat) :
    Except String ValueResultM :=
  match search_dht_key now st.storage key with
  | some v => .ok (ValueResultM.valueFound v)
  | none =>
    match get_known_nodes st k with
    | .error e => .error e
    | .ok ns => .ok (ValueResultM.valueNotFound ns)

theorem knownLoop_length (bs : List (Nat × BucketM)) (limit : Nat)
    (is : List Nat) : ∀ ret, ret.length < limit →
    (knownLoop bs limit is ret).length ≤ limit := by
  induction is with
  | nil => intro ret h; exact le_of_lt h
  | cons i is ih =>
    intro ret h
    simp only [knownLoop]
    have ht := takeUpTo_length limit (((mapGet bs i).getD []).map Prod.snd) ret h
    split
    next he => omega
    next he => exact ih _ (lt_of_le_of_ne ht he)

/-- C10: when no fresh value is stored under the queried hash, the
FindValue handler errors out for `k = 0` (because `get_known_nodes` treats
a zero limit as an error) and answers `ValueNotFound` with at most `k`
known nodes for `k ≥ 1`. -/
theorem C10_theorem (now : Int) (st : DhtState) (key : Nat) (k : Nat)
    (h : search_dht_key now st.storage key = none) :
    (k = 0 → process_find_value now st key k =
      .error "It is useless to ask for zero known nodes") ∧
    (1 ≤ k → ∃ ns, process_find_value now st key k =
      .ok (ValueResultM.valueNotFound ns) ∧ ns.length ≤ k) := by
  constructor
  · intro hk
    subst hk
    simp [process_find_value, h, get_known_nodes]
  · intro hk
    have hk0 : ¬ k = 0 := by omega
    refine ⟨knownLoop st.buckets k (List.range 256) [], ?_, ?_⟩
    · simp [process_find_value, h, get_known_nodes, hk0]
    · exact knownLoop_length st.buckets k (List.range 256) [] (by simpa using hk)

/-- Witness for C10 on the empty node state. -/
theorem C10_witness :
    (process_find_value 0 stA0 0 0 =
      .error "It is useless to ask for zero known nodes") ∧
    ∃ ns, process_find_value 0 stA0 0 1 =
      .ok (ValueResultM.valueNotFound ns) ∧ ns.length ≤ 1 :=
  ⟨(C10_theorem 0 stA0 0 0 rfl).1 rfl, (C10_theorem 0 stA0 0 1 rfl).2 (by decide)⟩

/-! ## Protocol dispatch (C9) -/

/-- The typed inbound messages the subscriber can receive. -/
inductive TLObjectM where
  | ping (random_id : Int)
  | findNode (key : List Nat) (k : Nat)
  | findValue (key : Nat) (k : Nat)
  | getSignedAddressList
  | store (value : DhtValueM)
  | query (node : NodeM)
  | other (tag : Nat)
  deriving DecidableEq, Repr

/-- The typed answers the handlers produce. -/
inductive QueryAnswerM where
  | pong (random_id : Int)
  | nodes (ns : List NodeM)
  | valueResult (r : ValueResultM)
  | signedNode (n : NodeM)
  | stored
  deriving DecidableEq, Repr

/-- Model of `QueryResult`: consumed with an answer, rejected, or rejected bundle. -/
inductive QueryResultM where
  | consumed (a : QueryAnswerM)
  | rejected (o : TLObjectM)
  | rejectedBundle (os : List TLObjectM)
  deriving DecidableEq, Repr

/-- Embedding of `Subscriber::try_consume_query` for `DhtNode` (lines 997-1021): the
five supported queries are dispatched, anything else is `Rejected`
without an error. -/
def try_consume_query (env : Env) (now : Int) (st : DhtState) (o : TLObjectM) :
    DhtState × Except String QueryResultM :=
  match o with
  | .ping rid => (st, .ok (.consumed (.pong rid)))
  | .findNode key k => (st, .ok (.consumed (.nodes (process_find_node st key k))))
  | .findValue key k =>
    match process_find_value now st key k with
    | .error e => (st, .error e)
    | .ok r => (st, .ok (.consumed (.valueResult r)))
  | .getSignedAddressList => (st, .ok (.consumed (.signedNode env.signLocal)))
  | .store v =>
    let r := process_store env now st.storage v
    (⟨st.localId, st.knownPeers, st.buckets, r.1⟩,
     r.2.map (fun _ => QueryResultM.consumed QueryAnswerM.stored))
  | o => (st, .ok (.rejected o))

/-- Embedding of `Subscriber::try_consume_query_bundle` (lines 1023-1044): exactly two
messages, the first a `dht.Query` envelope; the sender is added as a peer,
the second message processed solo, and a solo `Rejected` outcome is turned
into an error. -/
def try_consume_query_bundle (env : Env) (now : Int) (st : DhtState)
    (objects : List TLObjectM) : DhtState × Except String QueryResultM :=
  match objects with
  | [o1, o2] =>
    match o1 with
    | .query node =>
      match add_peer env st node with
      | .error e => (st, .error e)
      | .ok (st', _) =>
        let r := try_consume_query env now st' o2
        match r.2 with
        | .ok (.rejected _) => (r.1, .error "Unexpected DHT query")
        | x => (r.1, x)
    | o1 => (st, .ok (.rejectedBundle [o1, o2]))
  | os => (st, .ok (.rejectedBundle os))

/-- The five query types `try_consume_query` downcasts to. -/
def isSupported : TLObjectM → Bool
  | .ping _ => true
  | .findNode _ _ => true
  | .findValue _ _ => true
  | .getSignedAddressList => true
  | .store _ => true
  | _ => false

theorem try_consume_query_unsupported (env : Env) (now : Int) (st : DhtState)
    (o : TLObjectM) (h : isSupported o = false) :
    try_consume_query env now st o = (st, .ok (.rejected o)) := by
  cases o <;> first | rfl | simp [isSupported] at h

/-- C9: a two-message bundle whose envelope is a valid `dht.Query` but
whose second message is none of the five supported queries makes
`try_consume_query_bundle` fail with an error, while the same unsupported
message arriving solo is merely rejected without error. -/
theorem C9_theorem (env : Env) (now : Int) (st : DhtState) (node : NodeM)
    (b : TLObjectM) (st' : DhtState) (ret : Option (List Nat))
    (hb : isSupported b = false)
    (hadd : add_peer env st node = .ok (st', ret)) :
    (∃ e, (try_consume_query_bundle env now st [.query node, b]).2 = .error e) ∧
    (try_consume_query env now st b).2 = .ok (.rejected b) := by
  constructor
  · refine ⟨"Unexpected DHT query", ?_⟩
    simp only [try_consume_query_bundle, hadd,
      try_consume_query_unsupported env now st' b hb]
  · rw [try_consume_query_unsupported env now st b hb]

/-- Witness for C9: an unknown query tag in a bundle behind a `dht.Query`
envelope errors out; solo it is rejected. -/
theorem C9_witness :
    (∃ e, (try_consume_query_bundle env0 0 stA0
      [TLObjectM.query ⟨[], 0, 0, []⟩, TLObjectM.other 0]).2 = .error e) ∧
    (try_consume_query env0 0 stA0 (TLObjectM.other 0)).2 =
      .ok (.rejected (TLObjectM.other 0)) :=
  C9_theorem env0 0 stA0 ⟨[], 0, 0, []⟩ (TLObjectM.other 0) stA0 none rfl rfl

/-! ## `find_value` lookup engine (C8) -/

/-- Constant `DhtNode::MAX_TASKS`. -/
def MAX_TASKS : Nat := 5

/-- The fan-out phase of `find_value` (lines 543-563): while a current peer
exists, spawn its query (the per-peer outcome oracle stands for the spawned
`value_query`, completions queued in spawn order), advance the cursor, and
stop once `wait.request()` reports `MAX_TASKS` outstanding requests.  The
cursor is `(queue, last)`: the remaining peers with the current one in
front, and the most recently yielded peer (`AddressCache::given`). -/
def spawnPhase {α β : Type} (outcome : α → Option β) :
    List α → Option α → List (Option β) → List α × Option α × List (Option β)
  | [], last, pending => ([], last, pending)
  | p :: rest, _, pending =>
    let pending' := pending ++ [outcome p]
    let last' := match rest with | [] => some p | q :: _ => some q
    if MAX_TASKS ≤ pending'.length then (rest, last', pending')
    else spawnPhase outcome rest last' pending'

/-- The drain phase of `find_value` (lines 572-585): each `wait.wait` pop
takes the next completion (`none` marks an exhausted queue, setting
`finished`); the loop breaks when `!all || ret.len() < MAX_TASKS ||
finished`. -/
def drainPhase {β : Type} (all : Bool) :
    List (Option β) → List β → List (Option β) × List β × Bool
  | [], ret => ([], ret, true)
  | o :: rest, ret =>
    let ret' := match o with | some v => ret ++ [v] | none => ret
    if all = false ∨ ret'.length < MAX_TASKS then (rest, ret', false)
    else drainPhase all rest ret'

/-- The outer loop of `find_value` (lines 542-593): fan out, drain, stop
when (`all` and enough results) or (`not all` and any result) or finished;
otherwise re-arm an exhausted cursor from `given` and repeat.  Fuel bounds
the iteration count; `none` stands for a run that does not terminate within
the fuel. -/
def findValueLoop {α β : Type} (outcome : α → Option β) (all : Bool) :
    Nat → List α → Option α → List (Option β) → List β → Option (List β)
  | 0, _, _, _, _ => none
  | fuel + 1, queue, last, pending, ret =>
    let s := spawnPhase outcome queue last pending
    let d := drainPhase all s.2.2 ret
    if (all = true ∧ MAX_TASKS ≤ d.2.1.length) ∨
        (all = false ∧ d.2.1.isEmpty = false) ∨ d.2.2 = true then
      some d.2.1
    else
      findValueLoop outcome all fuel (if s.1.isEmpty then s.2.1.toList else s.1)
        s.2.1 d.1 d.2.1

/-- Embedding of `DhtNode::find_value` (lines 513-598) for a fresh cursor over the
known-peer cache (`first()` yields the head). -/
def find_value {α β : Type} (outcome : α → Option β) (all : Bool) (fuel : Nat)
    (peers : List α) : Option (List β) :=
  findValueLoop outcome all fuel peers peers.head? [] []

theorem spawnPhase_pending_le {α β : Type} (outcome : α → Option β)
    (queue : List α) : ∀ last pending, pending.length ≤ MAX_TASKS - 1 →
    (spawnPhase outcome queue last pending).2.2.length ≤ MAX_TASKS := by
  induction queue with
  | nil =>
    intro last pending h
    simp only [spawnPhase, MAX_TASKS] at h ⊢
    omega
  | cons p rest ih =>
    intro last pending h
    simp only [spawnPhase]
    split
    next he =>
      simp only [MAX_TASKS, List.length_append, List.length_cons, List.length_nil] at h he ⊢
      omega
    next he =>
      apply ih
      simp only [MAX_TASKS, List.length_append, List.length_cons, List.length_nil] at h he ⊢
      omega

theorem drainPhase_ret_le {β : Type} (all : Bool) (pending : List (Option β)) :
    ∀ ret, (drainPhase all pending ret).2.1.length ≤ ret.length + pending.length := by
  induction pending with
  | nil => intro ret; simp [drainPhase]
  | cons o rest ih =>
    intro ret
    cases o with
    | some v =>
      simp only [drainPhase]
      split
      · simp only [List.length_append, List.length_cons, List.length_nil]
        omega
      · have := ih (ret ++ [v])
        simp only [List.length_append, List.length_cons, List.length_nil] at this ⊢
        omega
    | none =>
      simp only [drainPhase]
      split
      · simp only [List.length_cons]
        omega
      · have := ih ret
        simp only [List.length_cons]
        omega

theorem drainPhase_false_le {β : Type} (pending : List (Option β)) (ret : List β) :
    (drainPhase false pending ret).2.1.length ≤ ret.length + 1 := by
  cases pending with
  | nil => simp [drainPhase]
  | cons o rest =>
    cases o with
    | some v =>
      simp only [drainPhase, if_pos (Or.inl rfl)]
      simp
    | none =>
      simp only [drainPhase, if_pos (Or.inl rfl)]
      simp

theorem drainPhase_pending_lt {β : Type} (all : Bool) (pending : List (Option β)) :
    ∀ ret, (drainPhase all pending ret).2.2 = false →
    (drainPhase all pending ret).1.length < pending.length := by
  induction pending with
  | nil => intro ret h; simp [drainPhase] at h
  | cons o rest ih =>
    intro ret h
    cases o with
    | some v =>
      simp only [drainPhase] at h ⊢
      split at h
      next he =>
        rw [if_pos he]
        simp
      next he =>
        rw [if_neg he]
        have := ih (ret ++ [v]) h
        simp only [List.length_cons]
        omega
    | none =>
      simp only [drainPhase] at h ⊢
      split at h
      next he =>
        rw [if_pos he]
        simp
      next he =>
        rw [if_neg he]
        have := ih ret h
        simp only [List.length_cons]
        omega

theorem findValueLoop_true_le {α β : Type} (outcome : α → Option β) (fuel : Nat) :
    ∀ (queue : List α) (last : Option α) (pending : List (Option β)) (ret out : List β),
    pending.length ≤ MAX_TASKS - 1 → ret.length ≤ MAX_TASKS - 1 →
    findValueLoop outcome true fuel queue last pending ret = some out →
    out.length ≤ 2 * MAX_TASKS - 1 := by
  induction fuel with
  | zero =>
    intro queue last pending ret out _ _ h
    cases h
  | succ fuel ih =>
    intro queue last pending ret out hp hr h
    simp only [findValueLoop] at h
    split at h
    next hstop =>
      rw [Option.some_inj] at h
      subst h
      have h1 := spawnPhase_pending_le outcome queue last pending hp
      have h2 := drainPhase_ret_le true (spawnPhase outcome queue last pending).2.2 ret
      simp only [MAX_TASKS] at h1 h2 hr ⊢
      omega
    next hstop =>
      push_neg at hstop
      obtain ⟨hs1, _, hs3⟩ := hstop
      have hretlen :
          (drainPhase true (spawnPhase outcome queue last pending).2.2 ret).2.1.length ≤
            MAX_TASKS - 1 := by
        have hlt := hs1 trivial
        simp only [MAX_TASKS] at hlt ⊢
        omega
      have hfin :
          (drainPhase true (spawnPhase outcome queue last pending).2.2 ret).2.2 = false := by
        cases hb : (drainPhase true (spawnPhase outcome queue last pending).2.2 ret).2.2
        · rfl
        · exact absurd hb hs3
      have h1 := spawnPhase_pending_le outcome queue last pending hp
      have h2 := drainPhase_pending_lt true (spawnPhase outcome queue last pending).2.2 ret hfin
      refine ih _ _ _ _ out ?_ hretlen h
      simp only [MAX_TASKS] at h1 h2 ⊢
      omega

theorem findValueLoop_false_le {α β : Type} (outcome : α → Option β) (fuel : Nat) :
    ∀ (queue : List α) (last : Option α) (pending : List (Option β)) (out : List β),
    findValueLoop outcome false fuel queue last pending [] = some out →
    out.length ≤ 1 := by
  induction fuel with
  | zero =>
    intro queue last pending out h
    cases h
  | succ fuel ih =>
    intro queue last pending out h
    simp only [findValueLoop] at h
    split at h
    next hstop =>
      rw [Option.some_inj] at h
      subst h
      have := drainPhase_false_le (spawnPhase outcome queue last pending).2.2 ([] : List β)
      simpa using this
    next hstop =>
      push_neg at hstop
      obtain ⟨_, hs2, _⟩ := hstop
      have hne := hs2 trivial
      have hempty : (drainPhase false (spawnPhase outcome queue last pending).2.2 []).2.1 = [] := by
        have : (drainPhase false (spawnPhase outcome queue last pending).2.2 []).2.1.isEmpty = true := by
          cases hb : (drainPhase false (spawnPhase outcome queue last pending).2.2 []).2.1.isEmpty
          · exact absurd hb hne
          · rfl
        exact List.isEmpty_iff.mp this
      rw [hempty] at h
      exact ih _ _ _ out h

/-- C8 (amended): when `find_value` returns, `all = false` yields at most
one value, while `all = true` can exceed `MAX_TASKS = 5` — the drain loop
keeps collecting once the threshold is reached — but never exceeds
`2 * MAX_TASKS - 1 = 9` values. -/
theorem C8_theorem {α β : Type} (outcome : α → Option β) (all : Bool) (fuel : Nat)
    (peers : List α) (out : List β)
    (h : find_value outcome all fuel peers = some out) :
    (all = false → out.length ≤ 1) ∧ out.length ≤ 2 * MAX_TASKS - 1 := by
  cases all
  · have h1 := findValueLoop_false_le outcome fuel peers peers.head? [] out h
    refine ⟨fun _ => h1, ?_⟩
    simp only [MAX_TASKS]
    omega
  · constructor
    · intro hc
      cases hc
    · exact findValueLoop_true_le outcome fuel peers peers.head? [] [] out
        (by simp) (by simp) h

/-- C8 counterexample: with nine peers all returning a satisfying value,
the `all = true` run returns nine values — more than `MAX_TASKS = 5` —
because after the fifth value the drain loop keeps collecting until the
queue is exhausted. -/
theorem C8_counterexample :
    find_value (fun p => some p) true 20 [1, 2, 3, 4, 5, 6, 7, 8, 9] =
      some [1, 2, 3, 4, 5, 6, 7, 8, 9] ∧
    ¬ ([1, 2, 3, 4, 5, 6, 7, 8, 9] : List Nat).length ≤ MAX_TASKS := by
  constructor
  · rfl
  · decide

/-- Witness for C8 on a trivial terminating run. -/
theorem C8_witness :
    find_value (fun _ : Nat => (none : Option Nat)) true 1 ([] : List Nat) = some [] ∧
    ((true = false → ([] : List Nat).length ≤ 1) ∧
     ([] : List Nat).length ≤ 2 * MAX_TASKS - 1) :=
  ⟨rfl, C8_theorem (fun _ : Nat => (none : Option Nat)) true 1 ([] : List Nat) [] rfl⟩
